import Mathlib

/-!
# Verification of the sentinel-rag streamed-response pipeline

Shallow embedding of the incremental SSE frame parser, the transcript
operations and the two relay endpoints of the repository, together with
theorems settling the frozen claims.

Strings are modelled as `List Char`; raw bytes as `List Nat`.  The
incremental UTF-8 decoder (`TextDecoder` with the stream option) is
modelled as a byte-at-a-time state machine following the WHATWG
decoding algorithm, the line parser as the buffer-draining loop of
`onSend` in the page component.
-/

namespace SentinelRag

/-- JavaScript-style whitespace test (ASCII subset actually exercised by
the repository's inputs). -/
def isWs (c : Char) : Bool :=
  c = ' ' || c = '\t' || c = '\n' || c = '\r'

/-- Model of `String.prototype.trim`. -/
def jsTrim (l : List Char) : List Char :=
  ((l.dropWhile isWs).reverse.dropWhile isWs).reverse

/-- Message role, from `type Msg = { role: "user" | "assistant"; text: string }`. -/
inductive Role where
  | user
  | assistant
deriving DecidableEq, Repr

/-- A transcript message, from `type Msg`. -/
structure Msg where
  role : Role
  text : List Char
deriving DecidableEq, Repr

/-- Replace the `text` of the element at position `n` by itself with `d`
appended; models `updated[idx] = { ...updated[idx], text: updated[idx].text + delta }`. -/
def setText : List Msg → Nat → List Char → List Msg
  | [], _, _ => []
  | m :: ms, 0, d => { m with text := m.text ++ d } :: ms
  | m :: ms, n + 1, d => m :: setText ms n d

/-- Embedding of `appendToAssistant` from the page component: the index
ref may be null, negative or out of range, in which case the previous
message list is returned unchanged. -/
def appendToAssistant (prev : List Msg) (idxRef : Option Int) (delta : List Char) : List Msg :=
  match idxRef with
  | none => prev
  | some idx =>
      if idx < 0 ∨ (prev.length : Int) ≤ idx then prev
      else setText prev idx.toNat delta

/-! ## Incremental UTF-8 decoder

`new TextDecoder("utf-8")` with `{ stream: true }`, modelled
byte-at-a-time following the WHATWG decoding algorithm.  An incomplete
multi-byte sequence is carried in the decoder state across chunk
boundaries; an invalid byte yields the replacement character. -/

/-- State of the streaming UTF-8 decoder. -/
structure DecState where
  codepoint : Nat
  needed : Nat
  seen : Nat
  lower : Nat
  upper : Nat
deriving DecidableEq, Repr

/-- Fresh decoder state. -/
def initDec : DecState := ⟨0, 0, 0, 0x80, 0xBF⟩

/-- U+FFFD. -/
def replChar : Char := Char.ofNat 0xFFFD

/-- Decode one byte starting from a fresh state (no pending sequence). -/
def decodeOne (b : Nat) : DecState × List Char :=
  if b ≤ 0x7F then (initDec, [Char.ofNat b])
  else if 0xC2 ≤ b ∧ b ≤ 0xDF then ({ initDec with needed := 1, codepoint := b % 32 }, [])
  else if 0xE0 ≤ b ∧ b ≤ 0xEF then
    ({ codepoint := b % 16, needed := 2, seen := 0,
       lower := if b = 0xE0 then 0xA0 else 0x80,
       upper := if b = 0xED then 0x9F else 0xBF }, [])
  else if 0xF0 ≤ b ∧ b ≤ 0xF4 then
    ({ codepoint := b % 8, needed := 3, seen := 0,
       lower := if b = 0xF0 then 0x90 else 0x80,
       upper := if b = 0xF4 then 0x8F else 0xBF }, [])
  else (initDec, [replChar])

/-- Push one byte into the streaming decoder. On an invalid continuation
byte the pending sequence becomes a replacement character and the byte is
reprocessed from a fresh state, as the WHATWG algorithm restores it to
the stream. -/
def pushByte (d : DecState) (b : Nat) : DecState × List Char :=
  if d.needed = 0 then decodeOne b
  else if d.lower ≤ b ∧ b ≤ d.upper then
    let cp := d.codepoint * 64 + b % 64
    if d.seen + 1 = d.needed then (initDec, [Char.ofNat cp])
    else ({ codepoint := cp, needed := d.needed, seen := d.seen + 1,
            lower := 0x80, upper := 0xBF }, [])
  else
    let r := decodeOne b
    (r.1, replChar :: r.2)

/-- Decode a chunk of bytes: `decoder.decode(value, { stream: true })`. -/
def decodeChunk (d : DecState) : List Nat → DecState × List Char
  | [] => (d, [])
  | b :: bs =>
      let r := pushByte d b
      let rest := decodeChunk r.1 bs
      (rest.1, r.2 ++ rest.2)

theorem decodeChunk_append (d : DecState) (a b : List Nat) :
    decodeChunk d (a ++ b) =
      ((decodeChunk (decodeChunk d a).1 b).1,
        (decodeChunk d a).2 ++ (decodeChunk (decodeChunk d a).1 b).2) := by
  induction a generalizing d with
  | nil => simp [decodeChunk]
  | cons x xs ih => simp [decodeChunk, ih, List.append_assoc]

/-! ## Line-oriented frame parser

Embedding of the inner loop of `onSend`: the decoded text accumulates in
`buffer`; complete lines (up to the first line-feed) are extracted and
interpreted one at a time; a `data:` line contributes a delta applied to
the in-flight assistant message via `appendToAssistant`; the `[END]`
sentinel clears the buffer, cancels the reader and stops processing. -/

/-- Split a character list at the first line-feed: `buffer.indexOf("\n")`
together with the two `buffer.slice` calls.  `none` when no line-feed is
present. -/
def splitAtNl : List Char → Option (List Char × List Char)
  | [] => none
  | c :: cs =>
      if c = '\n' then some ([], cs)
      else match splitAtNl cs with
        | none => none
        | some (a, r) => some (c :: a, r)

theorem splitAtNl_some_length {l a r : List Char} (h : splitAtNl l = some (a, r)) :
    r.length < l.length := by
  induction l generalizing a r with
  | nil => simp [splitAtNl] at h
  | cons c cs ih =>
      by_cases hc : c = '\n'
      · simp only [splitAtNl, hc, if_pos rfl] at h
        obtain ⟨h1, h2⟩ := Prod.mk.injEq .. ▸ Option.some.injEq .. ▸ h
        subst h2
        simp [List.length_cons]
      · simp only [splitAtNl, if_neg hc] at h
        cases hs : splitAtNl cs with
        | none => rw [hs] at h; exact absurd h (by simp)
        | some p =>
            rw [hs] at h
            obtain ⟨a', r'⟩ := p
            simp only [Option.some.injEq, Prod.mk.injEq] at h
            obtain ⟨h1, h2⟩ := h
            subst h2
            have := ih hs
            simp [List.length_cons]
            omega

theorem splitAtNl_eq_some {l a r : List Char} (h : splitAtNl l = some (a, r)) :
    l = a ++ '\n' :: r ∧ '\n' ∉ a := by
  induction l generalizing a r with
  | nil => simp [splitAtNl] at h
  | cons c cs ih =>
      by_cases hc : c = '\n'
      · subst hc
        simp [splitAtNl] at h
        obtain ⟨h1, h2⟩ := h
        subst h1; subst h2
        simp
      · simp only [splitAtNl, if_neg hc] at h
        cases hs : splitAtNl cs with
        | none => rw [hs] at h; exact absurd h (by simp)
        | some p =>
            rw [hs] at h
            obtain ⟨a', r'⟩ := p
            simp only [Option.some.injEq, Prod.mk.injEq] at h
            obtain ⟨h1, h2⟩ := h
            subst h2
            obtain ⟨ha, hn⟩ := ih hs
            subst ha
            constructor
            · rw [← h1]; simp
            · rw [← h1]
              intro hmem
              rcases List.mem_cons.mp hmem with h | h
              · exact hc h.symm
              · exact hn h

theorem splitAtNl_none {l : List Char} (h : splitAtNl l = none) : '\n' ∉ l := by
  induction l with
  | nil => simp
  | cons c cs ih =>
      by_cases hc : c = '\n'
      · simp [splitAtNl, hc] at h
      · simp only [splitAtNl, if_neg hc] at h
        cases hs : splitAtNl cs with
        | none =>
            intro hmem
            rcases List.mem_cons.mp hmem with hh | hh
            · exact hc hh.symm
            · exact ih hs hh
        | some p => rw [hs] at h; obtain ⟨a, r⟩ := p; simp at h

theorem splitAtNl_of_not_mem {l : List Char} (h : '\n' ∉ l) : splitAtNl l = none := by
  induction l with
  | nil => rfl
  | cons c cs ih =>
      have hc : c ≠ '\n' := fun hh => h (hh ▸ List.mem_cons_self c cs)
      have hcs : '\n' ∉ cs := fun hh => h (List.mem_cons_of_mem c hh)
      simp only [splitAtNl, if_neg hc, ih hcs]

theorem splitAtNl_append_of_some {x y a r : List Char} (h : splitAtNl x = some (a, r)) :
    splitAtNl (x ++ y) = some (a, r ++ y) := by
  induction x generalizing a r with
  | nil => simp [splitAtNl] at h
  | cons c cs ih =>
      by_cases hc : c = '\n'
      · subst hc
        simp [splitAtNl] at h
        obtain ⟨h1, h2⟩ := h
        subst h1; subst h2
        simp [splitAtNl]
      · simp only [splitAtNl, if_neg hc] at h
        cases hs : splitAtNl cs with
        | none => rw [hs] at h; exact absurd h (by simp)
        | some p =>
            rw [hs] at h
            obtain ⟨a', r'⟩ := p
            simp only [Option.some.injEq, Prod.mk.injEq] at h
            obtain ⟨h1, h2⟩ := h
            subst h1; subst h2
            simp only [List.cons_append, splitAtNl, if_neg hc]
            rw [show cs.append y = cs ++ y from rfl, ih hs]

theorem splitAtNl_no_nl_append {a b : List Char} (h : '\n' ∉ a) :
    splitAtNl (a ++ '\n' :: b) = some (a, b) := by
  induction a with
  | nil => simp [splitAtNl]
  | cons c cs ih =>
      have hc : c ≠ '\n' := fun hh => h (hh ▸ List.mem_cons_self c cs)
      have hcs : '\n' ∉ cs := fun hh => h (List.mem_cons_of_mem c hh)
      simp only [List.cons_append, splitAtNl, if_neg hc]
      rw [show cs.append ('\n' :: b) = cs ++ '\n' :: b from rfl, ih hcs]

/-- Strip the optional trailing carriage-return of a raw line:
`rawLine.endsWith("\r") ? rawLine.slice(0, -1) : rawLine`. -/
def stripCR (raw : List Char) : List Char :=
  if raw.getLast? = some '\r' then raw.dropLast else raw

/-- The literal `data:` frame tag. -/
def dataTag : List Char := "data:".toList

/-- The literal `[END]` sentinel payload. -/
def sentinelPayload : List Char := "[END]".toList

/-- What one complete raw line does, per the body of the inner loop of
`onSend`: non-`data:` lines are ignored; a `data:` line's payload is the
content after the 5-character tag with at most one separator space
removed; the payload `[END]` terminates the stream; an empty payload
contributes a newline delta. -/
inductive LineAction where
  | sentinel
  | delta (d : List Char)
  | skip
deriving DecidableEq, Repr

/-- Interpret one raw line, from the body of the line-extraction loop. -/
def lineAction (rawLine : List Char) : LineAction :=
  let line := stripCR rawLine
  if dataTag.isPrefixOf line then
    let data0 := line.drop 5
    let data := if data0.head? = some ' ' then data0.drop 1 else data0
    if data = sentinelPayload then .sentinel
    else if data = [] then .delta ['\n']
    else .delta data
  else .skip

/-- Parser state of one streaming operation: the undrained text buffer,
the transcript being mutated, the captured assistant index ref, the
record of applied deltas (in application order), and whether
`reader.cancel()` has been invoked after the sentinel. -/
structure PState where
  buffer : List Char
  msgs : List Msg
  idx : Option Int
  deltas : List (List Char)
  cancelled : Bool
deriving DecidableEq, Repr

/-- The line-extraction loop of `onSend`, with an explicit iteration
bound: each extracted line strictly shortens the buffer, so the buffer
length bounds the number of loop iterations. -/
def drainF : Nat → PState → PState
  | 0, st => st
  | n + 1, st =>
      match splitAtNl st.buffer with
      | none => st
      | some (raw, rest) =>
          match lineAction raw with
          | .sentinel => { st with buffer := [], cancelled := true }
          | .delta d =>
              drainF n { st with buffer := rest,
                                 msgs := appendToAssistant st.msgs st.idx d,
                                 deltas := st.deltas ++ [d] }
          | .skip => drainF n { st with buffer := rest }

/-- The line-extraction loop of `onSend`: repeatedly take the text up to
the first line-feed out of the buffer and interpret it; stop when no
line-feed remains, or when the sentinel empties the buffer and cancels
the reader. -/
def drain (st : PState) : PState :=
  drainF st.buffer.length st

/-- The iteration bound is irrelevant as long as it suffices. -/
theorem drainF_congr : ∀ (n m : Nat) (st : PState), st.buffer.length ≤ n →
    st.buffer.length ≤ m → drainF n st = drainF m st := by
  intro n
  induction n with
  | zero =>
      intro m st hn _
      have hb : st.buffer = [] := List.eq_nil_of_length_eq_zero (Nat.le_zero.mp hn)
      have hsp : splitAtNl st.buffer = none := by rw [hb]; rfl
      cases m with
      | zero => rfl
      | succ m => simp [drainF, hsp]
  | succ n ihn =>
      intro m st hn hm
      cases hsp : splitAtNl st.buffer with
      | none =>
          cases m with
          | zero =>
              have hb : st.buffer = [] := List.eq_nil_of_length_eq_zero (Nat.le_zero.mp hm)
              simp [drainF, hsp]
          | succ m => simp [drainF, hsp]
      | some pr =>
          obtain ⟨raw, rest⟩ := pr
          have hlt := splitAtNl_some_length hsp
          cases m with
          | zero =>
              have hb : st.buffer = [] := List.eq_nil_of_length_eq_zero (Nat.le_zero.mp hm)
              rw [hb] at hsp
              exact absurd hsp (by simp [splitAtNl])
          | succ m =>
              simp only [drainF, hsp]
              cases hla : lineAction raw with
              | sentinel => rfl
              | delta d => exact ihn m _ (by simpa using by omega) (by simpa using by omega)
              | skip => exact ihn m _ (by simpa using by omega) (by simpa using by omega)

/-- One-step unfolding of the draining loop. -/
theorem drain_eq (st : PState) : drain st =
    match splitAtNl st.buffer with
    | none => st
    | some (raw, rest) =>
        match lineAction raw with
        | .sentinel => { st with buffer := [], cancelled := true }
        | .delta d =>
            drain { st with buffer := rest,
                            msgs := appendToAssistant st.msgs st.idx d,
                            deltas := st.deltas ++ [d] }
        | .skip => drain { st with buffer := rest } := by
  unfold drain
  cases hsp : splitAtNl st.buffer with
  | none =>
      simp only [hsp]
      cases hl : st.buffer.length with
      | zero => rfl
      | succ n => simp [drainF, hsp]
  | some pr =>
      obtain ⟨raw, rest⟩ := pr
      simp only [hsp]
      have hlt := splitAtNl_some_length hsp
      cases hl : st.buffer.length with
      | zero => omega
      | succ n =>
          simp only [drainF, hsp]
          rw [hl] at hlt
          cases hla : lineAction raw with
          | sentinel => rfl
          | delta d =>
              simp only [hla]
              exact drainF_congr n rest.length _ (by simpa using by omega) (by simp)
          | skip =>
              simp only [hla]
              exact drainF_congr n rest.length _ (by simpa using by omega) (by simp)

/-- Feed decoded text to the parser: append it to the buffer and extract
all complete lines (`buffer += decoder.decode(...)` followed by the line
loop). -/
def feedText (st : PState) (t : List Char) : PState :=
  drain { st with buffer := st.buffer ++ t }

/-- Process one raw byte chunk delivered by `reader.read()`: decode it
incrementally, then feed the text to the line parser. -/
def feedChunk (p : DecState × PState) (c : List Nat) : DecState × PState :=
  let r := decodeChunk p.1 c
  (r.1, feedText p.2 r.2)

/-- One read-loop step: after `reader.cancel()` a pending read resolves
as done, so a chunk arriving then is never processed. -/
def feedStep (p : DecState × PState) (c : List Nat) : DecState × PState :=
  if p.2.cancelled then p else feedChunk p c

/-- The outer `while (true)` read loop of `onSend` over the sequence of
chunks the stream would deliver, ending at natural end of stream or when
the reader has been cancelled by the sentinel. -/
def runStream (p : DecState × PState) : List (List Nat) → DecState × PState
  | [] => p
  | c :: cs => if p.2.cancelled then p else runStream (feedChunk p c) cs

/-- Parser start state: empty buffer, fresh decoder, no applied deltas. -/
def initParser (msgs : List Msg) (idx : Option Int) : DecState × PState :=
  (initDec, ⟨[], msgs, idx, [], false⟩)

/-- The parser state after a delta line has been handled. -/
def afterDelta (s : PState) (rest d : List Char) : PState :=
  { s with buffer := rest, msgs := appendToAssistant s.msgs s.idx d, deltas := s.deltas ++ [d] }

/-- The parser state after an ignored line has been handled. -/
def afterSkip (s : PState) (rest : List Char) : PState :=
  { s with buffer := rest }

/-- The parser state after the sentinel line has been handled. -/
def afterSentinel (s : PState) : PState :=
  { s with buffer := [], cancelled := true }

/-! ### Structural facts about the draining loop -/

theorem drain_cancelled_mono (s : PState) (hs : s.cancelled = true) :
    (drain s).cancelled = true := by
  have key : ∀ n (s : PState), s.buffer.length ≤ n → s.cancelled = true →
      (drain s).cancelled = true := by
    intro n
    induction n with
    | zero =>
        intro s hlen hc
        have hb : s.buffer = [] := List.eq_nil_of_length_eq_zero (Nat.le_zero.mp hlen)
        have : splitAtNl s.buffer = none := by rw [hb]; rfl
        rw [drain_eq, this]
        exact hc
    | succ n ih =>
        intro s hlen hc
        cases hsp : splitAtNl s.buffer with
        | none => rw [drain_eq, hsp]; exact hc
        | some pr =>
            obtain ⟨raw, rest⟩ := pr
            have hrest : rest.length ≤ n := by
              have := splitAtNl_some_length hsp
              omega
            cases hla : lineAction raw with
            | sentinel => rw [drain_eq, hsp]; simp [hla]
            | delta d =>
                rw [drain_eq, hsp]
                simp only [hla]
                exact ih _ (by simpa using hrest) (by simpa using hc)
            | skip =>
                rw [drain_eq, hsp]
                simp only [hla]
                exact ih _ (by simpa using hrest) (by simpa using hc)
  exact key s.buffer.length s le_rfl hs

theorem drain_idx (s : PState) : (drain s).idx = s.idx := by
  have key : ∀ n (s : PState), s.buffer.length ≤ n → (drain s).idx = s.idx := by
    intro n
    induction n with
    | zero =>
        intro s hlen
        have hb : s.buffer = [] := List.eq_nil_of_length_eq_zero (Nat.le_zero.mp hlen)
        have : splitAtNl s.buffer = none := by rw [hb]; rfl
        rw [drain_eq, this]
    | succ n ih =>
        intro s hlen
        cases hsp : splitAtNl s.buffer with
        | none => rw [drain_eq, hsp]
        | some pr =>
            obtain ⟨raw, rest⟩ := pr
            have hrest : rest.length ≤ n := by
              have := splitAtNl_some_length hsp
              omega
            cases hla : lineAction raw with
            | sentinel => rw [drain_eq, hsp]; simp [hla]
            | delta d =>
                rw [drain_eq, hsp]
                simp only [hla]
                exact ih _ (by simpa using hrest)
            | skip =>
                rw [drain_eq, hsp]
                simp only [hla]
                exact ih _ (by simpa using hrest)
  exact key s.buffer.length s le_rfl

/-- After draining, either the sentinel fired or no line-feed is left in
the buffer: the buffer only ever holds an unterminated tail. -/
theorem drain_inv (s : PState) :
    (drain s).cancelled = true ∨ splitAtNl (drain s).buffer = none := by
  have key : ∀ n (s : PState), s.buffer.length ≤ n →
      (drain s).cancelled = true ∨ splitAtNl (drain s).buffer = none := by
    intro n
    induction n with
    | zero =>
        intro s hlen
        have hb : s.buffer = [] := List.eq_nil_of_length_eq_zero (Nat.le_zero.mp hlen)
        have hn : splitAtNl s.buffer = none := by rw [hb]; rfl
        rw [drain_eq, hn]
        exact Or.inr hn
    | succ n ih =>
        intro s hlen
        cases hsp : splitAtNl s.buffer with
        | none => rw [drain_eq, hsp]; exact Or.inr hsp
        | some pr =>
            obtain ⟨raw, rest⟩ := pr
            have hrest : rest.length ≤ n := by
              have := splitAtNl_some_length hsp
              omega
            cases hla : lineAction raw with
            | sentinel => rw [drain_eq, hsp]; simp [hla]
            | delta d =>
                rw [drain_eq, hsp]
                simp only [hla]
                exact ih _ (by simpa using hrest)
            | skip =>
                rw [drain_eq, hsp]
                simp only [hla]
                exact ih _ (by simpa using hrest)
  exact key s.buffer.length s le_rfl

/-- When the sentinel fires during a drain that started un-cancelled, the
decode buffer ends up discarded. -/
theorem drain_cancel_buffer (s : PState) (hs : s.cancelled = false)
    (h : (drain s).cancelled = true) : (drain s).buffer = [] := by
  have key : ∀ n (s : PState), s.buffer.length ≤ n → s.cancelled = false →
      (drain s).cancelled = true → (drain s).buffer = [] := by
    intro n
    induction n with
    | zero =>
        intro s hlen hc hdc
        have hb : s.buffer = [] := List.eq_nil_of_length_eq_zero (Nat.le_zero.mp hlen)
        have hn : splitAtNl s.buffer = none := by rw [hb]; rfl
        rw [drain_eq, hn] at hdc
        rw [hc] at hdc
        exact absurd hdc (by simp)
    | succ n ih =>
        intro s hlen hc hdc
        cases hsp : splitAtNl s.buffer with
        | none =>
            rw [drain_eq, hsp] at hdc
            rw [hc] at hdc
            exact absurd hdc (by simp)
        | some pr =>
            obtain ⟨raw, rest⟩ := pr
            have hrest : rest.length ≤ n := by
              have := splitAtNl_some_length hsp
              omega
            cases hla : lineAction raw with
            | sentinel => rw [drain_eq, hsp]; simp [hla]
            | delta d =>
                rw [drain_eq, hsp] at hdc ⊢
                simp only [hla] at hdc ⊢
                exact ih _ (by simpa using hrest) (by simpa using hc) hdc
            | skip =>
                rw [drain_eq, hsp] at hdc ⊢
                simp only [hla] at hdc ⊢
                exact ih _ (by simpa using hrest) (by simpa using hc) hdc
  exact key s.buffer.length s le_rfl hs h

/-- Draining, feeding more text, and draining again is the same as
draining the concatenation, provided the first drain did not hit the
sentinel. -/
theorem drain_append (s : PState) (b : List Char) (h : (drain s).cancelled = false) :
    drain { drain s with buffer := (drain s).buffer ++ b } =
      drain { s with buffer := s.buffer ++ b } := by
  have key : ∀ n (s : PState) (b : List Char), s.buffer.length ≤ n →
      (drain s).cancelled = false →
      drain { drain s with buffer := (drain s).buffer ++ b } =
        drain { s with buffer := s.buffer ++ b } := by
    intro n
    induction n with
    | zero =>
        intro s b hlen _
        have hb : s.buffer = [] := List.eq_nil_of_length_eq_zero (Nat.le_zero.mp hlen)
        have hn : splitAtNl s.buffer = none := by rw [hb]; rfl
        have hds : drain s = s := by rw [drain_eq, hn]
        rw [hds]
    | succ n ih =>
        intro s b hlen hc
        cases hsp : splitAtNl s.buffer with
        | none =>
            have hds : drain s = s := by rw [drain_eq, hsp]
            rw [hds]
        | some pr =>
            obtain ⟨raw, rest⟩ := pr
            have hsp2 : splitAtNl (s.buffer ++ b) = some (raw, rest ++ b) :=
              splitAtNl_append_of_some hsp
            have hrest : rest.length ≤ n := by
              have := splitAtNl_some_length hsp
              omega
            cases hla : lineAction raw with
            | sentinel =>
                have hds : (drain s).cancelled = true := by
                  rw [drain_eq, hsp]; simp [hla]
                rw [hds] at hc
                exact absurd hc (by simp)
            | delta d =>
                have hds : drain s = drain (afterDelta s rest d) := by
                  rw [drain_eq, hsp]; simp only [hla]; rfl
                have hrhs : drain { s with buffer := s.buffer ++ b } =
                    drain (afterDelta { s with buffer := s.buffer ++ b } (rest ++ b) d) := by
                  rw [drain_eq]
                  rw [show ({ s with buffer := s.buffer ++ b } : PState).buffer
                        = s.buffer ++ b from rfl, hsp2]
                  simp only [hla]; rfl
                have := ih (afterDelta s rest d) b (by simpa [afterDelta] using hrest)
                  (hds ▸ hc)
                rw [hds, hrhs]
                exact this
            | skip =>
                have hds : drain s = drain { s with buffer := rest } := by
                  rw [drain_eq, hsp]; simp only [hla]
                have hrhs : drain { s with buffer := s.buffer ++ b } =
                    drain { s with buffer := rest ++ b } := by
                  rw [drain_eq]
                  rw [show ({ s with buffer := s.buffer ++ b } : PState).buffer
                        = s.buffer ++ b from rfl, hsp2]
                  simp only [hla]
                have := ih { s with buffer := rest } b (by simpa using hrest) (hds ▸ hc)
                rw [hds, hrhs]
                exact this
  exact key s.buffer.length s b le_rfl h

/-- Once a drain starting un-cancelled hits the sentinel, text appended
behind the sentinel line changes nothing: the remaining buffered bytes
are never applied. -/
theorem drain_cancel_absorb (s : PState) (b : List Char) (hs : s.cancelled = false)
    (h : (drain s).cancelled = true) :
    drain { s with buffer := s.buffer ++ b } = drain s := by
  have key : ∀ n (s : PState) (b : List Char), s.buffer.length ≤ n →
      s.cancelled = false → (drain s).cancelled = true →
      drain { s with buffer := s.buffer ++ b } = drain s := by
    intro n
    induction n with
    | zero =>
        intro s b hlen hsc hdc
        have hb : s.buffer = [] := List.eq_nil_of_length_eq_zero (Nat.le_zero.mp hlen)
        have hn : splitAtNl s.buffer = none := by rw [hb]; rfl
        rw [drain_eq, hn] at hdc
        rw [hsc] at hdc
        exact absurd hdc (by simp)
    | succ n ih =>
        intro s b hlen hsc hdc
        cases hsp : splitAtNl s.buffer with
        | none =>
            rw [drain_eq, hsp] at hdc
            rw [hsc] at hdc
            exact absurd hdc (by simp)
        | some pr =>
            obtain ⟨raw, rest⟩ := pr
            have hsp2 : splitAtNl (s.buffer ++ b) = some (raw, rest ++ b) :=
              splitAtNl_append_of_some hsp
            have hrest : rest.length ≤ n := by
              have := splitAtNl_some_length hsp
              omega
            cases hla : lineAction raw with
            | sentinel =>
                have hds : drain s = { s with buffer := [], cancelled := true } := by
                  rw [drain_eq, hsp]; simp only [hla]
                have hlhs : drain { s with buffer := s.buffer ++ b } =
                    { s with buffer := [], cancelled := true } := by
                  rw [drain_eq]
                  rw [show ({ s with buffer := s.buffer ++ b } : PState).buffer
                        = s.buffer ++ b from rfl, hsp2]
                  simp only [hla]
                rw [hds, hlhs]
            | delta d =>
                have hds : drain s = drain (afterDelta s rest d) := by
                  rw [drain_eq, hsp]; simp only [hla]; rfl
                have hlhs : drain { s with buffer := s.buffer ++ b } =
                    drain (afterDelta { s with buffer := s.buffer ++ b } (rest ++ b) d) := by
                  rw [drain_eq]
                  rw [show ({ s with buffer := s.buffer ++ b } : PState).buffer
                        = s.buffer ++ b from rfl, hsp2]
                  simp only [hla]; rfl
                rw [hds] at hdc
                have := ih (afterDelta s rest d) b (by simpa [afterDelta] using hrest)
                  (by simpa [afterDelta] using hsc) hdc
                rw [hds, hlhs]
                exact this
            | skip =>
                have hds : drain s = drain { s with buffer := rest } := by
                  rw [drain_eq, hsp]; simp only [hla]
                have hlhs : drain { s with buffer := s.buffer ++ b } =
                    drain { s with buffer := rest ++ b } := by
                  rw [drain_eq]
                  rw [show ({ s with buffer := s.buffer ++ b } : PState).buffer
                        = s.buffer ++ b from rfl, hsp2]
                  simp only [hla]
                rw [hds] at hdc
                have := ih { s with buffer := rest } b (by simpa using hrest)
                  (by simpa using hsc) hdc
                rw [hds, hlhs]
                exact this
  exact key s.buffer.length s b le_rfl hs h

/-! ### Chunk-boundary invariance machinery -/

/-- Observational equality of read-loop states: the parser state agrees,
and the decoder state agrees as long as the reader has not been
cancelled (after cancellation no further byte is ever decoded, so the
decoder state is unobservable). -/
def obsEq (p q : DecState × PState) : Prop :=
  p.2 = q.2 ∧ (p.2.cancelled = false → p.1 = q.1)

theorem obsEq_refl (p : DecState × PState) : obsEq p p :=
  ⟨rfl, fun _ => rfl⟩

theorem obsEq_trans {p q r : DecState × PState} (h1 : obsEq p q) (h2 : obsEq q r) :
    obsEq p r := by
  obtain ⟨e1, f1⟩ := h1
  obtain ⟨e2, f2⟩ := h2
  refine ⟨e1.trans e2, fun hc => ?_⟩
  rw [f1 hc, f2 (e1 ▸ hc)]

theorem runStream_cancelled (p : DecState × PState) (l : List (List Nat))
    (h : p.2.cancelled = true) : runStream p l = p := by
  cases l with
  | nil => rfl
  | cons c cs => simp [runStream, h]

theorem runStream_cons (p : DecState × PState) (c : List Nat) (cs : List (List Nat)) :
    runStream p (c :: cs) = runStream (feedStep p c) cs := by
  cases h : p.2.cancelled with
  | true =>
      have hf : feedStep p c = p := by simp [feedStep, h]
      rw [hf, runStream_cancelled p (c :: cs) h, runStream_cancelled p cs h]
  | false => simp [runStream, feedStep, h]

theorem feedText_append_of_not_cancelled (st : PState) (t1 t2 : List Char)
    (h : (feedText st t1).cancelled = false) :
    feedText (feedText st t1) t2 = feedText st (t1 ++ t2) := by
  show drain _ = drain { st with buffer := st.buffer ++ (t1 ++ t2) }
  rw [show st.buffer ++ (t1 ++ t2) = (st.buffer ++ t1) ++ t2 from (List.append_assoc ..).symm]
  exact drain_append { st with buffer := st.buffer ++ t1 } t2 h

theorem feedText_cancel_absorb (st : PState) (t1 t2 : List Char)
    (hs : st.cancelled = false) (h : (feedText st t1).cancelled = true) :
    feedText st (t1 ++ t2) = feedText st t1 := by
  show drain { st with buffer := st.buffer ++ (t1 ++ t2) } = drain _
  rw [show st.buffer ++ (t1 ++ t2) = (st.buffer ++ t1) ++ t2 from (List.append_assoc ..).symm]
  exact drain_cancel_absorb { st with buffer := st.buffer ++ t1 } t2 hs h

/-- The read-loop invariant: either cancelled, or the buffer holds no
complete line. -/
def noPendingLine (p : DecState × PState) : Prop :=
  p.2.cancelled = true ∨ splitAtNl p.2.buffer = none

theorem noPendingLine_init (msgs : List Msg) (idx : Option Int) :
    noPendingLine (initParser msgs idx) := Or.inr rfl

theorem feedStep_inv (p : DecState × PState) (c : List Nat) (h : noPendingLine p) :
    noPendingLine (feedStep p c) := by
  by_cases hc : p.2.cancelled
  · simpa [feedStep, hc] using h
  · simp only [feedStep, hc, if_neg]
    simp only [feedChunk, feedText]
    exact drain_inv _


/-- Feeding two chunks in sequence is observationally the same as
feeding their concatenation: the one composition fact behind
chunk-boundary invariance. -/
theorem feedStep_append (p : DecState × PState) (a b : List Nat) :
    obsEq (feedStep (feedStep p a) b) (feedStep p (a ++ b)) := by
  obtain ⟨d, st⟩ := p
  cases hcb : st.cancelled with
  | true =>
      simp only [feedStep, hcb, ite_true, if_pos]
      exact obsEq_refl _
  | false =>
      have e1 : feedStep (d, st) a =
          ((decodeChunk d a).1, feedText st (decodeChunk d a).2) := by
        simp [feedStep, hcb, feedChunk]
      have eab : feedStep (d, st) (a ++ b) =
          ((decodeChunk (decodeChunk d a).1 b).1,
            feedText st ((decodeChunk d a).2 ++ (decodeChunk (decodeChunk d a).1 b).2)) := by
        simp [feedStep, hcb, feedChunk, decodeChunk_append]
      rw [e1, eab]
      cases hr : (feedText st (decodeChunk d a).2).cancelled with
      | true =>
          have habs :
              feedText st ((decodeChunk d a).2 ++ (decodeChunk (decodeChunk d a).1 b).2) =
                feedText st (decodeChunk d a).2 :=
            feedText_cancel_absorb st _ _ hcb hr
          rw [habs]
          have e2 : feedStep ((decodeChunk d a).1, feedText st (decodeChunk d a).2) b =
              ((decodeChunk d a).1, feedText st (decodeChunk d a).2) := by
            simp [feedStep, hr]
          rw [e2]
          refine ⟨rfl, fun hfalse => ?_⟩
          rw [hr] at hfalse
          simp at hfalse
      | false =>
          have e2 : feedStep ((decodeChunk d a).1, feedText st (decodeChunk d a).2) b =
              ((decodeChunk (decodeChunk d a).1 b).1,
                feedText (feedText st (decodeChunk d a).2)
                  (decodeChunk (decodeChunk d a).1 b).2) := by
            simp [feedStep, hr, feedChunk]
          rw [e2, feedText_append_of_not_cancelled st _ _ hr]
          exact obsEq_refl _

/-- Running the read loop over a chunk list is observationally the same
as processing everything as one chunk. -/
theorem runStream_eq_single (chunks : List (List Nat)) (p : DecState × PState)
    (hinv : noPendingLine p) :
    obsEq (runStream p chunks) (feedStep p chunks.flatten) := by
  induction chunks generalizing p with
  | nil =>
      show obsEq p (feedStep p [])
      by_cases hc : p.2.cancelled
      · simp only [feedStep, hc, ite_true, if_pos]
        exact obsEq_refl _
      · have hn : splitAtNl p.2.buffer = none := by
          rcases hinv with h | h
          · exact absurd h (by simp [hc])
          · exact h
        have : feedStep p [] = p := by
          simp only [feedStep, hc, ite_false, if_neg]
          simp only [feedChunk, decodeChunk, feedText]
          have hb : ({ p.2 with buffer := p.2.buffer ++ ([] : List Char) } : PState) = p.2 := by
            simp
          rw [hb, drain_eq, hn]
          simp
        rw [this]
        exact obsEq_refl _
  | cons c cs ih =>
      rw [runStream_cons]
      have h1 := ih (feedStep p c) (feedStep_inv p c hinv)
      have h2 := feedStep_append p c cs.flatten
      have hj : (c :: cs).flatten = c ++ cs.flatten := rfl
      rw [hj]
      exact obsEq_trans h1 h2

/-! ### Whole-stream description of the wire protocol

The following definitions restate, at whole-stream granularity, what the
specification says the parser extracts: the list of complete
line-feed-terminated lines (each with an optional carriage-return
accompanying the line-feed stripped), and the payload deltas of the
`data:` lines up to and excluding the first sentinel frame. -/

/-- Complete-line extraction with an explicit iteration bound. -/
def completeLinesF : Nat → List Char → List (List Char)
  | 0, _ => []
  | n + 1, t =>
      match splitAtNl t with
      | none => []
      | some (raw, rest) => stripCR raw :: completeLinesF n rest

/-- All complete (line-feed-terminated) lines of a text, carriage-return
stripped; the unterminated tail is not a line. -/
def completeLines (t : List Char) : List (List Char) :=
  completeLinesF t.length t

theorem completeLinesF_congr : ∀ (n m : Nat) (t : List Char), t.length ≤ n →
    t.length ≤ m → completeLinesF n t = completeLinesF m t := by
  intro n
  induction n with
  | zero =>
      intro m t hn _
      have hb : t = [] := List.eq_nil_of_length_eq_zero (Nat.le_zero.mp hn)
      have hsp : splitAtNl t = none := by rw [hb]; rfl
      cases m with
      | zero => rfl
      | succ m => simp [completeLinesF, hsp]
  | succ n ihn =>
      intro m t hn hm
      cases hsp : splitAtNl t with
      | none =>
          cases m with
          | zero => simp [completeLinesF, hsp]
          | succ m => simp [completeLinesF, hsp]
      | some pr =>
          obtain ⟨raw, rest⟩ := pr
          have hlt := splitAtNl_some_length hsp
          cases m with
          | zero =>
              have hb : t = [] := List.eq_nil_of_length_eq_zero (Nat.le_zero.mp hm)
              rw [hb] at hsp
              exact absurd hsp (by simp [splitAtNl])
          | succ m =>
              simp only [completeLinesF, hsp]
              rw [ihn m rest (by omega) (by omega)]

/-- One-step unfolding of complete-line extraction. -/
theorem completeLines_eq (t : List Char) : completeLines t =
    match splitAtNl t with
    | none => []
    | some (raw, rest) => stripCR raw :: completeLines rest := by
  unfold completeLines
  cases hsp : splitAtNl t with
  | none =>
      simp only [hsp]
      cases hl : t.length with
      | zero => rfl
      | succ n => simp [completeLinesF, hsp]
  | some pr =>
      obtain ⟨raw, rest⟩ := pr
      simp only [hsp]
      have hlt := splitAtNl_some_length hsp
      cases hl : t.length with
      | zero => omega
      | succ n =>
          simp only [completeLinesF, hsp]
          rw [hl] at hlt
          rw [completeLinesF_congr n rest.length rest (by omega) (by simp)]

/-- Payload of a `data:` line per the specification: the line content
after the 5-character tag, with at most one single leading separator
space stripped; any further leading spaces are preserved verbatim. -/
def payloadOf (line : List Char) : List Char :=
  let payload0 := line.drop 5
  if payload0.head? = some ' ' then payload0.drop 1 else payload0

/-- Deltas of a line list per the specification: only `data:` lines
contribute; an empty payload contributes the single newline character;
the first sentinel payload ends the enumeration. -/
def specDeltas : List (List Char) → List (List Char)
  | [] => []
  | line :: rest =>
      if dataTag.isPrefixOf line then
        if payloadOf line = sentinelPayload then []
        else (if payloadOf line = [] then ['\n'] else payloadOf line) :: specDeltas rest
      else specDeltas rest

/-- Per-line agreement between the loop body and the specification-side
description. -/
theorem specDeltas_cons (raw : List Char) (rest : List (List Char)) :
    specDeltas (stripCR raw :: rest) =
      match lineAction raw with
      | .sentinel => []
      | .delta d => d :: specDeltas rest
      | .skip => specDeltas rest := by
  by_cases hp : dataTag.isPrefixOf (stripCR raw) = true
  · by_cases hsent : payloadOf (stripCR raw) = sentinelPayload
    · have hla : lineAction raw = .sentinel := by
        simp [lineAction, hp, payloadOf] at hsent ⊢
        simp [hsent]
      rw [hla]
      simp [specDeltas, hp, hsent]
    · have hpe : ¬sentinelPayload = ([] : List Char) := by decide
      by_cases hnil : payloadOf (stripCR raw) = []
      · have hla : lineAction raw = .delta ['\n'] := by
          simp [lineAction, hp, payloadOf] at hsent hnil ⊢
          simp [hsent, hnil, hpe]
        rw [hla]
        simp [specDeltas, hp, hsent, hnil, hpe]
      · have hla : lineAction raw = .delta (payloadOf (stripCR raw)) := by
          simp [lineAction, hp, payloadOf] at hsent hnil ⊢
          simp [hsent, hnil, payloadOf]
        rw [hla]
        simp [specDeltas, hp, hsent, hnil]
  · have hla : lineAction raw = .skip := by
      simp [lineAction, hp]
    rw [hla]
    simp [specDeltas, hp]

/-- The deltas the draining loop applies are exactly the payloads the
specification describes for the complete lines of the buffer. -/
theorem drain_deltas (s : PState) :
    (drain s).deltas = s.deltas ++ specDeltas (completeLines s.buffer) := by
  have key : ∀ n (s : PState), s.buffer.length ≤ n →
      (drain s).deltas = s.deltas ++ specDeltas (completeLines s.buffer) := by
    intro n
    induction n with
    | zero =>
        intro s hlen
        have hb : s.buffer = [] := List.eq_nil_of_length_eq_zero (Nat.le_zero.mp hlen)
        have hn : splitAtNl s.buffer = none := by rw [hb]; rfl
        rw [drain_eq, hn, completeLines_eq, hn]
        simp [specDeltas]
    | succ n ih =>
        intro s hlen
        cases hsp : splitAtNl s.buffer with
        | none =>
            rw [drain_eq, hsp, completeLines_eq, hsp]
            simp [specDeltas]
        | some pr =>
            obtain ⟨raw, rest⟩ := pr
            have hrest : rest.length ≤ n := by
              have := splitAtNl_some_length hsp
              omega
            rw [drain_eq, hsp, completeLines_eq, hsp, specDeltas_cons raw (completeLines rest)]
            cases hla : lineAction raw with
            | sentinel => simp only [hla]; simp
            | delta d =>
                simp only [hla]
                have := ih (afterDelta s rest d) (by simpa [afterDelta] using hrest)
                simp only [afterDelta] at this
                rw [this]
                simp
            | skip =>
                simp only [hla]
                have := ih (afterSkip s rest) (by simpa [afterSkip] using hrest)
                simp only [afterSkip] at this
                rw [this]
  exact key s.buffer.length s le_rfl

/-- The transcript after draining is the fold of `appendToAssistant`
over the deltas the specification describes, in order. -/
theorem drain_msgs (s : PState) :
    (drain s).msgs = (specDeltas (completeLines s.buffer)).foldl
      (fun m d => appendToAssistant m s.idx d) s.msgs := by
  have key : ∀ n (s : PState), s.buffer.length ≤ n →
      (drain s).msgs = (specDeltas (completeLines s.buffer)).foldl
        (fun m d => appendToAssistant m s.idx d) s.msgs := by
    intro n
    induction n with
    | zero =>
        intro s hlen
        have hb : s.buffer = [] := List.eq_nil_of_length_eq_zero (Nat.le_zero.mp hlen)
        have hn : splitAtNl s.buffer = none := by rw [hb]; rfl
        rw [drain_eq, hn, completeLines_eq, hn]
        simp [specDeltas]
    | succ n ih =>
        intro s hlen
        cases hsp : splitAtNl s.buffer with
        | none =>
            rw [drain_eq, hsp, completeLines_eq, hsp]
            simp [specDeltas]
        | some pr =>
            obtain ⟨raw, rest⟩ := pr
            have hrest : rest.length ≤ n := by
              have := splitAtNl_some_length hsp
              omega
            rw [drain_eq, hsp, completeLines_eq, hsp, specDeltas_cons raw (completeLines rest)]
            cases hla : lineAction raw with
            | sentinel => simp only [hla]; simp
            | delta d =>
                simp only [hla]
                have := ih (afterDelta s rest d) (by simpa [afterDelta] using hrest)
                simp only [afterDelta] at this
                rw [this]
                simp
            | skip =>
                simp only [hla]
                have := ih (afterSkip s rest) (by simpa [afterSkip] using hrest)
                simp only [afterSkip] at this
                rw [this]
  exact key s.buffer.length s le_rfl

/-- Closed form of the read loop's applied deltas: whatever the chunking,
they are the specification's payloads for the whole decoded stream. -/
theorem runStream_deltas (base : List Msg) (idx : Option Int) (chunks : List (List Nat)) :
    (runStream (initParser base idx) chunks).2.deltas =
      specDeltas (completeLines (decodeChunk initDec chunks.flatten).2) := by
  have hobs := runStream_eq_single chunks (initParser base idx) (noPendingLine_init base idx)
  rw [hobs.1]
  have hfs : feedStep (initParser base idx) chunks.flatten =
      ((decodeChunk initDec chunks.flatten).1,
        drain { buffer := (decodeChunk initDec chunks.flatten).2, msgs := base,
                idx := idx, deltas := [], cancelled := false }) := by
    simp [feedStep, initParser, feedChunk, feedText]
  rw [hfs]
  have hd := drain_deltas { buffer := (decodeChunk initDec chunks.flatten).2, msgs := base,
                            idx := idx, deltas := [], cancelled := false }
  simpa using hd

/-- Closed form of the transcript after the read loop. -/
theorem runStream_msgs (base : List Msg) (idx : Option Int) (chunks : List (List Nat)) :
    (runStream (initParser base idx) chunks).2.msgs =
      (specDeltas (completeLines (decodeChunk initDec chunks.flatten).2)).foldl
        (fun m d => appendToAssistant m idx d) base := by
  have hobs := runStream_eq_single chunks (initParser base idx) (noPendingLine_init base idx)
  rw [hobs.1]
  have hfs : feedStep (initParser base idx) chunks.flatten =
      ((decodeChunk initDec chunks.flatten).1,
        drain { buffer := (decodeChunk initDec chunks.flatten).2, msgs := base,
                idx := idx, deltas := [], cancelled := false }) := by
    simp [feedStep, initParser, feedChunk, feedText]
  rw [hfs]
  have hd := drain_msgs { buffer := (decodeChunk initDec chunks.flatten).2, msgs := base,
                          idx := idx, deltas := [], cancelled := false }
  simpa using hd

/-! ### Appending at the in-flight index -/

theorem setText_append_last (b : List Msg) (m : Msg) (d : List Char) :
    setText (b ++ [m]) b.length d = b ++ [{ m with text := m.text ++ d }] := by
  induction b with
  | nil => rfl
  | cons x xs ih => simp [setText, ih]

/-- Appending a delta through the in-flight pointer at the last position
of the transcript extends exactly that message's text. -/
theorem appendToAssistant_last (b : List Msg) (r : Role) (t d : List Char) :
    appendToAssistant (b ++ [⟨r, t⟩]) (some (b.length : Int)) d =
      b ++ [⟨r, t ++ d⟩] := by
  have hsome : appendToAssistant (b ++ [⟨r, t⟩]) (some (b.length : Int)) d =
      if (b.length : Int) < 0 ∨ ((b ++ [⟨r, t⟩] : List Msg).length : Int) ≤ (b.length : Int)
      then b ++ [⟨r, t⟩] else setText (b ++ [⟨r, t⟩]) ((b.length : Int)).toNat d := rfl
  have hneg : ¬((b.length : Int) < 0 ∨ ((b ++ [⟨r, t⟩] : List Msg).length : Int) ≤ (b.length : Int)) := by
    simp
  rw [hsome, if_neg hneg]
  have : ((b.length : Int)).toNat = b.length := Int.toNat_natCast b.length
  rw [this]
  exact setText_append_last b ⟨r, t⟩ d

/-- Folding delta-appends through a valid last-position pointer
concatenates all deltas onto that message. -/
theorem foldl_appendToAssistant_last (b : List Msg) (r : Role) (t : List Char)
    (ds : List (List Char)) :
    ds.foldl (fun m d => appendToAssistant m (some (b.length : Int)) d) (b ++ [⟨r, t⟩]) =
      b ++ [⟨r, t ++ ds.flatten⟩] := by
  induction ds generalizing t with
  | nil => simp
  | cons d ds ih =>
      simp only [List.foldl_cons, appendToAssistant_last]
      rw [ih (t ++ d)]
      simp

/-! ### Carriage-return handling -/

theorem stripCR_concat_cr (l : List Char) : stripCR (l ++ ['\r']) = l := by
  unfold stripCR
  rw [if_pos (by simp), List.dropLast_concat]

theorem stripCR_of_no_cr (l : List Char) (h : l.getLast? ≠ some '\r') : stripCR l = l := by
  unfold stripCR
  rw [if_neg h]

/-- Terminating each line with carriage-return line-feed produces the
same complete stripped lines as terminating with line-feed alone. -/
theorem completeLines_crlf (ls : List (List Char))
    (h : ∀ l ∈ ls, '\n' ∉ l ∧ l.getLast? ≠ some '\r') :
    completeLines ((ls.map (fun l => l ++ ['\r', '\n'])).flatten) =
      completeLines ((ls.map (fun l => l ++ ['\n'])).flatten) := by
  induction ls with
  | nil => rfl
  | cons l rest ih =>
      obtain ⟨hln, hlr⟩ := h l (List.mem_cons_self l rest)
      have hrest := fun x hx => h x (List.mem_cons_of_mem l hx)
      have hlncr : '\n' ∉ l ++ ['\r'] := by
        intro hmem
        rcases List.mem_append.mp hmem with hm | hm
        · exact hln hm
        · simp at hm
      have e1 : splitAtNl ((l ++ ['\r', '\n']) ++ (rest.map (fun x => x ++ ['\r', '\n'])).flatten)
          = some (l ++ ['\r'], (rest.map (fun x => x ++ ['\r', '\n'])).flatten) := by
        rw [show (l ++ ['\r', '\n']) ++ (rest.map (fun x => x ++ ['\r', '\n'])).flatten
              = (l ++ ['\r']) ++ '\n' :: (rest.map (fun x => x ++ ['\r', '\n'])).flatten by simp]
        exact splitAtNl_no_nl_append hlncr
      have e2 : splitAtNl ((l ++ ['\n']) ++ (rest.map (fun x => x ++ ['\n'])).flatten)
          = some (l, (rest.map (fun x => x ++ ['\n'])).flatten) := by
        rw [show (l ++ ['\n']) ++ (rest.map (fun x => x ++ ['\n'])).flatten
              = l ++ '\n' :: (rest.map (fun x => x ++ ['\n'])).flatten by simp]
        exact splitAtNl_no_nl_append hln
      show completeLines ((l ++ ['\r', '\n']) ++ (rest.map (fun x => x ++ ['\r', '\n'])).flatten)
        = completeLines ((l ++ ['\n']) ++ (rest.map (fun x => x ++ ['\n'])).flatten)
      rw [completeLines_eq, e1, completeLines_eq, e2]
      show stripCR (l ++ ['\r']) :: completeLines (rest.map (fun x => x ++ ['\r', '\n'])).flatten
        = stripCR l :: completeLines (rest.map (fun x => x ++ ['\n'])).flatten
      rw [stripCR_concat_cr, stripCR_of_no_cr l hlr, ih hrest]

/-! ## The send operation of the page component

`onSend` is embedded as a pure function of the component state and of an
abstract outcome of the `fetch` call.  The try/catch surrounding the
whole streaming section makes the embedding total: every failure path
lands in the catch branch, which appends the failure notice; therefore
no exception escapes to the caller of the operation.  The state-machine
status of the operation is returned alongside the new state. -/

/-- The body of a resolved streaming response: the chunks the reader
delivers in order, then either a clean end of stream or a rejection of
the next read (a mid-stream transport error). -/
structure StreamBody where
  chunks : List (List Nat)
  tailError : Option (List Char)
deriving DecidableEq, Repr

/-- Outcome of `fetch("/api/ask-stream", ...)` as observed by `onSend`:
either the promise rejects (network error carrying a message), or a
response arrives with a status code and an optional body stream. -/
inductive FetchOutcome where
  | netError (msg : List Char)
  | resp (status : Nat) (body : Option StreamBody)
deriving DecidableEq, Repr

/-- `Response.ok`: status in the inclusive range 200-299. -/
def respOk (status : Nat) : Bool :=
  200 ≤ status && status < 300

/-- `await response.text().catch(() => "")`: the whole body decoded as
text, or the empty string when there is no body or reading it fails. -/
def bodyText (b : Option StreamBody) : List Char :=
  match b with
  | none => []
  | some sb =>
      match sb.tailError with
      | some _ => []
      | none => (decodeChunk initDec sb.chunks.flatten).2

/-- The notice the catch branch appends:
`"\n\n" + ("Streaming failed. " + message).trim()`. -/
def failNotice (m : List Char) : List Char :=
  '\n' :: '\n' :: jsTrim ("Streaming failed. ".toList ++ m)

/-- The error message thrown on a non-ok response:
`("HTTP " + status + ". " + text).trim()`. -/
def httpErrMsg (status : Nat) (b : Option StreamBody) : List Char :=
  jsTrim ("HTTP ".toList ++ (Nat.repr status).toList ++ ". ".toList ++ bodyText b)

/-- The message thrown when the response carries no body. -/
def noBodyMsg : List Char := "No response body (stream missing).".toList

/-- Component state: the input field, the loading flag, the transcript
and the assistant index ref. -/
structure UIState where
  input : List Char
  loading : Bool
  messages : List Msg
  assistantIndexRef : Option Int
deriving DecidableEq, Repr

/-- `canSend` from the page component:
`input.trim().length > 0 && !loading`. -/
def canSend (st : UIState) : Bool :=
  decide (0 < (jsTrim st.input).length) && !st.loading

/-- Status of one streaming operation, per the specification's state
machine: the guard rejects, the stream completes, or the catch branch
records a failure. -/
inductive OpStatus where
  | rejected
  | completed
  | failed
deriving DecidableEq, Repr

/-- Embedding of `onSend`.  The guard `if (!q || loading) return` comes
first; then the user message and the empty assistant placeholder are
appended and the index ref set; the streaming section runs inside
try/catch; `finally` clears the loading flag.  A sentinel cancellation
means the reader is released, so a pending tail error is never observed
in that case. -/
def onSend (st : UIState) (f : FetchOutcome) : UIState × OpStatus :=
  let q := jsTrim st.input
  if q.isEmpty || st.loading then (st, .rejected)
  else
    let msgs1 := st.messages ++ [⟨.user, q⟩]
    let idx : Int := msgs1.length
    let msgs2 := msgs1 ++ [⟨.assistant, []⟩]
    match f with
    | .netError e =>
        ({ input := [], loading := false, assistantIndexRef := some idx,
           messages := appendToAssistant msgs2 (some idx) (failNotice e) }, .failed)
    | .resp status body =>
        if !respOk status then
          ({ input := [], loading := false, assistantIndexRef := some idx,
             messages := appendToAssistant msgs2 (some idx)
               (failNotice (httpErrMsg status body)) }, .failed)
        else
          match body with
          | none =>
              ({ input := [], loading := false, assistantIndexRef := some idx,
                 messages := appendToAssistant msgs2 (some idx)
                   (failNotice noBodyMsg) }, .failed)
          | some sb =>
              let fin := runStream (initParser msgs2 (some idx)) sb.chunks
              if fin.2.cancelled then
                ({ input := [], loading := false, assistantIndexRef := some idx,
                   messages := fin.2.msgs }, .completed)
              else
                match sb.tailError with
                | some e =>
                    ({ input := [], loading := false, assistantIndexRef := some idx,
                       messages := appendToAssistant fin.2.msgs (some idx)
                         (failNotice e) }, .failed)
                | none =>
                    ({ input := [], loading := false, assistantIndexRef := some idx,
                       messages := fin.2.msgs }, .completed)

/-- A transport failure as `onSend` observes it: the fetch promise
rejects, the response status is not ok, the response carries no body,
or - during streaming - a read rejects before the sentinel has
cancelled the reader.  After cancellation the reader is released, so a
pending stream error is never observed and the operation completes
instead.  The prelude (trimmed question, appended user message,
in-flight index) is recomputed exactly as `onSend` computes it. -/
def transportFailure (st : UIState) (f : FetchOutcome) : Bool :=
  match f with
  | .netError _ => true
  | .resp status body =>
      if !respOk status then true
      else
        match body with
        | none => true
        | some sb =>
            let q := jsTrim st.input
            let msgs1 := st.messages ++ [⟨.user, q⟩]
            let idx : Int := msgs1.length
            let msgs2 := msgs1 ++ [⟨.assistant, []⟩]
            sb.tailError.isSome &&
              !(runStream (initParser msgs2 (some idx)) sb.chunks).2.cancelled

/-- The deltas `onSend` has applied to the in-flight message by the time
a failure is observed: none for the pre-stream failures (rejected
fetch, non-ok status, missing body), and the read loop's applied deltas
for a mid-stream failure. -/
def appliedDeltas (st : UIState) (f : FetchOutcome) : List (List Char) :=
  match f with
  | .netError _ => []
  | .resp status body =>
      if !respOk status then []
      else
        match body with
        | none => []
        | some sb =>
            let q := jsTrim st.input
            let msgs1 := st.messages ++ [⟨.user, q⟩]
            let idx : Int := msgs1.length
            let msgs2 := msgs1 ++ [⟨.assistant, []⟩]
            (runStream (initParser msgs2 (some idx)) sb.chunks).2.deltas

/-! ## The relay endpoints -/

/-- A client-observable relay response: status code, content type and
the forwarded body stream. -/
structure RelayResponse where
  status : Nat
  contentType : List Char
  body : Option StreamBody
deriving DecidableEq, Repr

/-- Embedding of the streaming relay `POST` of `app/api/ask-stream/route.ts`.
There is no try/catch: a failed body parse or a rejected fetch
propagates out of the handler as an exception (the `Except.error` case).
A resolved fetch of any status yields
`new Response(response.body, { headers: { "Content-Type": "text/event-stream" } })`,
whose status is the constructor default 200 - the backend status is not
passed through. -/
def askStreamPOST (reqBody : Except (List Char) (List Char)) (f : FetchOutcome) :
    Except (List Char) RelayResponse :=
  match reqBody with
  | .error e => .error e
  | .ok _ =>
      match f with
      | .netError e => .error e
      | .resp _ body =>
          .ok { status := 200, contentType := "text/event-stream".toList, body := body }

/-- A backend response to the non-streaming `/ask` forward: its status,
its raw body text, and the result of parsing that text as JSON (`some`
when the body parses, carrying the parsed document). -/
structure BackendResp where
  status : Nat
  textBody : List Char
  jsonBody : Option (List Char)
deriving DecidableEq, Repr

/-- Placeholder for the engine's JSON parse error message. -/
def jsonParseErr : List Char := "JSON parse error".toList

/-- Body of the catch-branch response of `app/api/ask/route.ts`:
`{ error: "Proxy error", detail: err.message }`. -/
def proxyError (detail : List Char) : List Char :=
  "Proxy error: ".toList ++ detail

/-- Embedding of the non-streaming `POST` of `app/api/ask/route.ts`: one
blocking forward inside try/catch; the backend's JSON body is re-sent
with the backend's status; any thrown error (body parse, fetch
rejection, JSON parse of the backend body) yields a 500 proxy-error
response. -/
def askPOST (reqBody : Except (List Char) (List Char))
    (f : Except (List Char) BackendResp) : Nat × List Char :=
  match reqBody with
  | .error e => (500, proxyError e)
  | .ok _ =>
      match f with
      | .error e => (500, proxyError e)
      | .ok r =>
          match r.jsonBody with
          | none => (500, proxyError jsonParseErr)
          | some v => (r.status, v)

/-- Embedding of the other non-streaming `POST` variant (the one using
`r.text()` and `new NextResponse(text, { status: r.status })`): no
try/catch, so parse and fetch errors escape; otherwise the backend's
body text is returned unchanged under the backend's status. -/
def askTextPOST (reqBody : Except (List Char) (List Char))
    (f : Except (List Char) BackendResp) : Except (List Char) (Nat × List Char) :=
  match reqBody with
  | .error e => .error e
  | .ok _ =>
      match f with
      | .error e => .error e
      | .ok r => .ok (r.status, r.textBody)

/-! ## Claim theorems -/

/-- ASCII text as a byte stream, for concrete instances. -/
def asciiBytes (s : String) : List Nat := s.toList.map Char.toNat

/-- C1: for every input byte stream consumed by the frame parser, the
concatenation of deltas applied to the in-flight assistant message
equals the concatenation of the payloads of all `data:` lines preceding
the sentinel frame, where each payload is the line content after the
5-character `data:` tag with at most one single leading separator space
stripped, an empty payload contributes the single newline character, and
further leading spaces are preserved verbatim. -/
theorem claim1_delta_concatenation (base : List Msg) (idx : Option Int)
    (chunks : List (List Nat)) :
    ((runStream (initParser base idx) chunks).2.deltas).flatten =
      (specDeltas (completeLines (decodeChunk initDec chunks.flatten).2)).flatten := by
  rw [runStream_deltas]

/-- C2: for every fixed byte stream and every partitioning of it into
chunks, the frame parser reconstructs the same final transcript (hence
the same in-flight message text) and applies the same deltas: chunk
boundary placement, including mid-line and mid-multi-byte-character
splits, never changes the result. -/
theorem claim2_chunk_invariance (base : List Msg) (idx : Option Int)
    (c1 c2 : List (List Nat)) (h : c1.flatten = c2.flatten) :
    (runStream (initParser base idx) c1).2.msgs =
        (runStream (initParser base idx) c2).2.msgs ∧
      (runStream (initParser base idx) c1).2.deltas =
        (runStream (initParser base idx) c2).2.deltas := by
  constructor
  · rw [runStream_msgs, runStream_msgs, h]
  · rw [runStream_deltas, runStream_deltas, h]

/-- Witness for C2 at a concrete split: one-byte-at-a-time delivery of
`data: é\n` (with `é` split mid-character) against single-chunk
delivery. -/
theorem claim2_chunk_invariance_witness :
    (([[100], [97], [116], [97], [58], [32], [0xC3], [0xA9], [10]] :
          List (List Nat)).flatten =
        ([[100, 97, 116, 97, 58, 32, 0xC3, 0xA9, 10]] : List (List Nat)).flatten) ∧
      ((runStream (initParser [⟨.assistant, []⟩] (some 0))
            [[100], [97], [116], [97], [58], [32], [0xC3], [0xA9], [10]]).2.msgs =
          (runStream (initParser [⟨.assistant, []⟩] (some 0))
            [[100, 97, 116, 97, 58, 32, 0xC3, 0xA9, 10]]).2.msgs ∧
        (runStream (initParser [⟨.assistant, []⟩] (some 0))
            [[100], [97], [116], [97], [58], [32], [0xC3], [0xA9], [10]]).2.deltas =
          (runStream (initParser [⟨.assistant, []⟩] (some 0))
            [[100, 97, 116, 97, 58, 32, 0xC3, 0xA9, 10]]).2.deltas) :=
  ⟨by decide,
    claim2_chunk_invariance [⟨.assistant, []⟩] (some 0)
      [[100], [97], [116], [97], [58], [32], [0xC3], [0xA9], [10]]
      [[100, 97, 116, 97, 58, 32, 0xC3, 0xA9, 10]] (by decide)⟩

/-- C3: once a line whose extracted payload is the literal sentinel
`[END]` is recognized, no delta from any subsequent byte is applied to
the in-flight message - neither from bytes already buffered in the same
chunk (behind the sentinel line) nor from chunks delivered later - the
decode buffer is discarded, and the reader is cancelled so the read loop
requests nothing further from the stream. -/
theorem claim3_sentinel_idempotent (p : DecState × PState) (a b : List Nat)
    (more : List (List Nat)) (h0 : p.2.cancelled = false)
    (h1 : (feedChunk p a).2.cancelled = true) :
    (feedChunk p (a ++ b)).2.msgs = (feedChunk p a).2.msgs ∧
      (feedChunk p (a ++ b)).2.deltas = (feedChunk p a).2.deltas ∧
      (feedChunk p a).2.buffer = [] ∧
      runStream (feedChunk p a) more = feedChunk p a := by
  obtain ⟨d, st⟩ := p
  have hab2 : (feedChunk (d, st) (a ++ b)).2 =
      feedText st ((decodeChunk d a).2 ++ (decodeChunk (decodeChunk d a).1 b).2) := by
    simp [feedChunk, decodeChunk_append]
  have habs : feedText st ((decodeChunk d a).2 ++ (decodeChunk (decodeChunk d a).1 b).2) =
      feedText st (decodeChunk d a).2 :=
    feedText_cancel_absorb st _ _ h0 h1
  refine ⟨?_, ?_, ?_, runStream_cancelled _ more h1⟩
  · rw [hab2, habs]; rfl
  · rw [hab2, habs]; rfl
  · exact drain_cancel_buffer { st with buffer := st.buffer ++ (decodeChunk d a).2 } h0 h1

/-- Witness for C3: a chunk carrying the sentinel followed by a further
`data:` line in the same chunk, with one more chunk arriving later. -/
theorem claim3_sentinel_idempotent_witness :
    ((initParser [⟨.assistant, []⟩] (some 0)).2.cancelled = false ∧
      (feedChunk (initParser [⟨.assistant, []⟩] (some 0))
        (asciiBytes "data:[END]\ndata: late\n")).2.cancelled = true) ∧
    ((feedChunk (initParser [⟨.assistant, []⟩] (some 0))
          (asciiBytes "data:[END]\ndata: late\n" ++ asciiBytes "data: later\n")).2.msgs =
        (feedChunk (initParser [⟨.assistant, []⟩] (some 0))
          (asciiBytes "data:[END]\ndata: late\n")).2.msgs ∧
      (feedChunk (initParser [⟨.assistant, []⟩] (some 0))
          (asciiBytes "data:[END]\ndata: late\n" ++ asciiBytes "data: later\n")).2.deltas =
        (feedChunk (initParser [⟨.assistant, []⟩] (some 0))
          (asciiBytes "data:[END]\ndata: late\n")).2.deltas ∧
      (feedChunk (initParser [⟨.assistant, []⟩] (some 0))
          (asciiBytes "data:[END]\ndata: late\n")).2.buffer = [] ∧
      runStream (feedChunk (initParser [⟨.assistant, []⟩] (some 0))
          (asciiBytes "data:[END]\ndata: late\n")) [asciiBytes "data: evenlater\n"] =
        feedChunk (initParser [⟨.assistant, []⟩] (some 0))
          (asciiBytes "data:[END]\ndata: late\n")) :=
  ⟨⟨rfl, by decide⟩,
    claim3_sentinel_idempotent (initParser [⟨.assistant, []⟩] (some 0))
      (asciiBytes "data:[END]\ndata: late\n") (asciiBytes "data: later\n")
      [asciiBytes "data: evenlater\n"] rfl (by decide)⟩

/-- C6: a line is terminated by a line-feed and an optional
carriage-return accompanying the line-feed is stripped before the line
is interpreted, so a stream with CRLF terminators produces exactly the
same deltas (and the same transcript) as the same stream with LF
terminators. -/
theorem claim6_crlf_equivalence (base : List Msg) (idx : Option Int)
    (ls : List (List Char)) (h : ∀ l ∈ ls, '\n' ∉ l ∧ l.getLast? ≠ some '\r') :
    (feedText ⟨[], base, idx, [], false⟩
        ((ls.map (fun l => l ++ ['\r', '\n'])).flatten)).deltas =
      (feedText ⟨[], base, idx, [], false⟩
        ((ls.map (fun l => l ++ ['\n'])).flatten)).deltas ∧
    (feedText ⟨[], base, idx, [], false⟩
        ((ls.map (fun l => l ++ ['\r', '\n'])).flatten)).msgs =
      (feedText ⟨[], base, idx, [], false⟩
        ((ls.map (fun l => l ++ ['\n'])).flatten)).msgs := by
  have hcl := completeLines_crlf ls h
  constructor
  · show (drain _).deltas = (drain _).deltas
    rw [drain_deltas, drain_deltas]
    simp only []
    rw [show ((⟨[], base, idx, [], false⟩ : PState).buffer ++
          (ls.map (fun l => l ++ ['\r', '\n'])).flatten) =
        (ls.map (fun l => l ++ ['\r', '\n'])).flatten from rfl]
    rw [show ((⟨[], base, idx, [], false⟩ : PState).buffer ++
          (ls.map (fun l => l ++ ['\n'])).flatten) =
        (ls.map (fun l => l ++ ['\n'])).flatten from rfl]
    rw [hcl]
  · show (drain _).msgs = (drain _).msgs
    rw [drain_msgs, drain_msgs]
    simp only []
    rw [show ((⟨[], base, idx, [], false⟩ : PState).buffer ++
          (ls.map (fun l => l ++ ['\r', '\n'])).flatten) =
        (ls.map (fun l => l ++ ['\r', '\n'])).flatten from rfl]
    rw [show ((⟨[], base, idx, [], false⟩ : PState).buffer ++
          (ls.map (fun l => l ++ ['\n'])).flatten) =
        (ls.map (fun l => l ++ ['\n'])).flatten from rfl]
    rw [hcl]

/-- Witness for C6 on a concrete two-line stream. -/
theorem claim6_crlf_equivalence_witness :
    (∀ l ∈ (["data: Hi".toList, "data:".toList] : List (List Char)),
        '\n' ∉ l ∧ l.getLast? ≠ some '\r') ∧
    ((feedText ⟨[], [], none, [], false⟩
          (((["data: Hi".toList, "data:".toList] : List (List Char)).map
            (fun l => l ++ ['\r', '\n'])).flatten)).deltas =
        (feedText ⟨[], [], none, [], false⟩
          (((["data: Hi".toList, "data:".toList] : List (List Char)).map
            (fun l => l ++ ['\n'])).flatten)).deltas ∧
      (feedText ⟨[], [], none, [], false⟩
          (((["data: Hi".toList, "data:".toList] : List (List Char)).map
            (fun l => l ++ ['\r', '\n'])).flatten)).msgs =
        (feedText ⟨[], [], none, [], false⟩
          (((["data: Hi".toList, "data:".toList] : List (List Char)).map
            (fun l => l ++ ['\n'])).flatten)).msgs) :=
  ⟨by decide,
    claim6_crlf_equivalence [] none ["data: Hi".toList, "data:".toList] (by decide)⟩

/-! ### Pointwise facts about setText, for the frame-effect claim -/

theorem setText_length (l : List Msg) (n : Nat) (d : List Char) :
    (setText l n d).length = l.length := by
  induction l generalizing n with
  | nil => rfl
  | cons m ms ih =>
      cases n with
      | zero => simp [setText]
      | succ n => simp [setText, ih]

theorem setText_getElem?_ne (l : List Msg) (n : Nat) (d : List Char) (j : Nat)
    (h : j ≠ n) : (setText l n d)[j]? = l[j]? := by
  induction l generalizing n j with
  | nil => rfl
  | cons m ms ih =>
      cases n with
      | zero =>
          cases j with
          | zero => exact absurd rfl h
          | succ j => simp [setText]
      | succ n =>
          cases j with
          | zero => simp [setText]
          | succ j =>
              simp only [setText, List.getElem?_cons_succ]
              exact ih n j (fun hc => h (by rw [hc]))

theorem setText_getElem?_eq (l : List Msg) (n : Nat) (d : List Char) (m : Msg)
    (h : l[n]? = some m) :
    (setText l n d)[n]? = some { m with text := m.text ++ d } := by
  induction l generalizing n with
  | nil => simp at h
  | cons x xs ih =>
      cases n with
      | zero =>
          simp only [List.getElem?_cons_zero, Option.some.injEq] at h
          subst h
          simp [setText]
      | succ n =>
          simp only [List.getElem?_cons_succ] at h
          simp only [setText, List.getElem?_cons_succ]
          exact ih n h

/-- C8: a delta application through a valid in-flight pointer mutates
only the text of the pointed-at message: the transcript length and
order are unchanged, every other message is untouched, the target's
role is preserved, and the target's text is its old text with the delta
appended at the end. -/
theorem claim8_append_frame_effect (prev : List Msg) (i : Nat) (m : Msg)
    (d : List Char) (h : prev[i]? = some m) :
    (appendToAssistant prev (some (i : Int)) d).length = prev.length ∧
      (∀ j, j ≠ i → (appendToAssistant prev (some (i : Int)) d)[j]? = prev[j]?) ∧
      (appendToAssistant prev (some (i : Int)) d)[i]? =
        some ⟨m.role, m.text ++ d⟩ := by
  have hlt : i < prev.length := by
    by_contra hge
    rw [List.getElem?_eq_none (by omega)] at h
    exact absurd h (by simp)
  have hred : appendToAssistant prev (some (i : Int)) d = setText prev i d := by
    have hsome : appendToAssistant prev (some (i : Int)) d =
        if (i : Int) < 0 ∨ (prev.length : Int) ≤ (i : Int) then prev
        else setText prev ((i : Int)).toNat d := rfl
    rw [hsome, if_neg (by simp; omega), Int.toNat_natCast]
  refine ⟨?_, ?_, ?_⟩
  · rw [hred]; exact setText_length prev i d
  · intro j hj
    rw [hred]
    exact setText_getElem?_ne prev i d j hj
  · rw [hred]
    have := setText_getElem?_eq prev i d m h
    simpa using this

/-- Witness for C8 on a two-message transcript. -/
theorem claim8_append_frame_effect_witness :
    (([⟨.user, ['q']⟩, ⟨.assistant, ['a']⟩] : List Msg)[1]? =
        some ⟨.assistant, ['a']⟩) ∧
    ((appendToAssistant [⟨.user, ['q']⟩, ⟨.assistant, ['a']⟩]
          (some (1 : Int)) ['b']).length =
        ([⟨.user, ['q']⟩, ⟨.assistant, ['a']⟩] : List Msg).length ∧
      (∀ j, j ≠ 1 →
        (appendToAssistant [⟨.user, ['q']⟩, ⟨.assistant, ['a']⟩]
            (some (1 : Int)) ['b'])[j]? =
          ([⟨.user, ['q']⟩, ⟨.assistant, ['a']⟩] : List Msg)[j]?) ∧
      (appendToAssistant [⟨.user, ['q']⟩, ⟨.assistant, ['a']⟩]
          (some (1 : Int)) ['b'])[1]? =
        some ⟨Role.assistant, ['a'] ++ ['b']⟩) :=
  ⟨by decide,
    claim8_append_frame_effect [⟨.user, ['q']⟩, ⟨.assistant, ['a']⟩] 1
      ⟨.assistant, ['a']⟩ ['b'] (by decide)⟩

/-- C10: whenever the in-flight pointer is null, negative or not less
than the transcript length, the delta-append operation is a total no-op:
the transcript is returned unchanged and no exception is possible (the
embedding is a total function). -/
theorem claim10_invalid_pointer_noop (prev : List Msg) (idxRef : Option Int)
    (d : List Char)
    (h : idxRef = none ∨
      ∃ i, idxRef = some i ∧ (i < 0 ∨ (prev.length : Int) ≤ i)) :
    appendToAssistant prev idxRef d = prev := by
  rcases h with h | ⟨i, hi, hrange⟩
  · rw [h]; rfl
  · rw [hi]
    have hsome : appendToAssistant prev (some i) d =
        if i < 0 ∨ (prev.length : Int) ≤ i then prev
        else setText prev i.toNat d := rfl
    rw [hsome, if_pos hrange]

/-- Witness for C10 with a negative pointer. -/
theorem claim10_invalid_pointer_noop_witness :
    ((some (-1 : Int) = none ∨
        ∃ i, some (-1 : Int) = some i ∧
          (i < 0 ∨ ((([⟨.assistant, ['a']⟩] : List Msg)).length : Int) ≤ i))) ∧
      appendToAssistant [⟨.assistant, ['a']⟩] (some (-1 : Int)) ['b'] =
        [⟨.assistant, ['a']⟩] :=
  ⟨Or.inr ⟨-1, rfl, Or.inl (by decide)⟩,
    claim10_invalid_pointer_noop [⟨.assistant, ['a']⟩] (some (-1 : Int)) ['b']
      (Or.inr ⟨-1, rfl, Or.inl (by decide)⟩)⟩

/-- C7: a send invoked while a previous operation is still in flight
(the loading flag is set) or while the trimmed input is empty is
rejected as a no-op: the state is unchanged, so no message is appended,
no in-flight pointer is created and no delta can be interleaved; the
triggering control is disabled, as `canSend` is false in exactly these
situations. -/
theorem claim7_single_operation_guard (st : UIState) (f : FetchOutcome)
    (h : st.loading = true ∨ jsTrim st.input = []) :
    onSend st f = (st, .rejected) ∧ canSend st = false := by
  have hguard : ((jsTrim st.input).isEmpty || st.loading) = true := by
    rcases h with h | h
    · simp [h]
    · simp [h]
  constructor
  · unfold onSend
    simp only [hguard, if_pos, ite_true]
  · unfold canSend
    rcases h with h | h
    · simp [h]
    · simp [h]

/-- Witness for C7 while an operation is loading. -/
theorem claim7_single_operation_guard_witness :
    (((⟨"hello".toList, true, [], some 0⟩ : UIState).loading = true ∨
        jsTrim (⟨"hello".toList, true, [], some 0⟩ : UIState).input = [])) ∧
      (onSend ⟨"hello".toList, true, [], some 0⟩ (.resp 200 none) =
          (⟨"hello".toList, true, [], some 0⟩, .rejected) ∧
        canSend ⟨"hello".toList, true, [], some 0⟩ = false) :=
  ⟨Or.inl rfl,
    claim7_single_operation_guard ⟨"hello".toList, true, [], some 0⟩
      (.resp 200 none) (Or.inl rfl)⟩

/-- C9: for every request to the non-streaming question-answering
endpoint for which the backend responds (per the backend contract, with
a JSON body), the endpoint performs a single blocking forward and
returns the backend's body as one unit with the backend's status code;
the text-forwarding variant preserves the status and body
unconditionally. -/
theorem claim9_nonstreaming_forward (b : List Char) (r : BackendResp)
    (v : List Char) (h : r.jsonBody = some v) :
    askPOST (.ok b) (.ok r) = (r.status, v) ∧
      askTextPOST (.ok b) (.ok r) = .ok (r.status, r.textBody) := by
  constructor
  · simp [askPOST, h]
  · simp [askTextPOST]

/-- Witness for C9 on a backend 200 response with a JSON body. -/
theorem claim9_nonstreaming_forward_witness :
    (({ status := 200, textBody := "ans".toList,
        jsonBody := some "ans".toList } : BackendResp).jsonBody =
      some "ans".toList) ∧
    (askPOST (.ok "q".toList)
        (.ok { status := 200, textBody := "ans".toList,
               jsonBody := some "ans".toList }) = (200, "ans".toList) ∧
      askTextPOST (.ok "q".toList)
        (.ok { status := 200, textBody := "ans".toList,
               jsonBody := some "ans".toList }) = .ok (200, "ans".toList)) :=
  ⟨rfl,
    claim9_nonstreaming_forward "q".toList
      { status := 200, textBody := "ans".toList, jsonBody := some "ans".toList }
      "ans".toList rfl⟩

/-- C4, counterexample: the streaming relay does not forward the
backend's status - a backend 500 is relayed under the route's own 200 -
and a rejected outbound fetch escapes the handler as an exception
instead of producing a response. -/
theorem claim4_relay_counterexample :
    (askStreamPOST (.ok "q".toList) (.resp 500 (some ⟨[], none⟩)) =
        .ok { status := 200, contentType := "text/event-stream".toList,
              body := some ⟨[], none⟩ } ∧
      (200 : Nat) ≠ 500) ∧
    askStreamPOST (.ok "q".toList) (.netError "ECONNREFUSED".toList) =
      .error "ECONNREFUSED".toList :=
  ⟨⟨rfl, by decide⟩, rfl⟩

/-- C4, amended: when the outbound fetch resolves - whatever the
backend's status - the relay returns a client-observable response whose
body is the backend's body and whose content type marks an event
stream, but under the route's own 200 status; when the outbound
connection cannot be established (or the request body cannot be
parsed), the exception propagates out of the handler instead of
becoming a response of this route. -/
theorem claim4_relay_amended (b : List Char) (status : Nat)
    (body : Option StreamBody) (e : List Char) :
    askStreamPOST (.ok b) (.resp status body) =
        .ok { status := 200, contentType := "text/event-stream".toList,
              body := body } ∧
      askStreamPOST (.ok b) (.netError e) = .error e ∧
      askStreamPOST (.error e) (.resp status body) = .error e :=
  ⟨rfl, rfl, rfl⟩

/-- C5: when the guard admits the send and a transport failure occurs
(network error, non-success HTTP status, missing response body, or a
read rejecting mid-stream), the operation ends in the failed status,
the loading flag is cleared, every delta already applied to the
in-flight assistant message is retained - its text is exactly the
concatenation of the applied deltas - and a human-readable failure
notice is appended to that same message; the embedding of `onSend` is a
total function, reflecting that the surrounding try/catch lets no
exception escape to the caller. -/
theorem claim5_failure_semantics (st : UIState) (f : FetchOutcome)
    (hq : (jsTrim st.input).isEmpty = false) (hl : st.loading = false)
    (hf : transportFailure st f = true) :
    (onSend st f).2 = .failed ∧
      (onSend st f).1.loading = false ∧
      ∃ e, (onSend st f).1.messages =
        st.messages ++ [⟨.user, jsTrim st.input⟩,
          ⟨.assistant, (appliedDeltas st f).flatten ++ failNotice e⟩] := by
  have hfix : ∀ (t e : List Char),
      appendToAssistant
          ((st.messages ++ [⟨.user, jsTrim st.input⟩]) ++ [⟨.assistant, t⟩])
          (some (((st.messages ++ [⟨.user, jsTrim st.input⟩] : List Msg)).length : Int))
          (failNotice e) =
        st.messages ++ [⟨.user, jsTrim st.input⟩, ⟨.assistant, t ++ failNotice e⟩] := by
    intro t e
    refine (appendToAssistant_last (st.messages ++ [⟨.user, jsTrim st.input⟩])
      .assistant t (failNotice e)).trans ?_
    simp
  cases f with
  | netError e =>
      have hred : onSend st (.netError e) =
          ({ input := [], loading := false,
             assistantIndexRef :=
               some (((st.messages ++ [⟨.user, jsTrim st.input⟩] : List Msg)).length : Int),
             messages := appendToAssistant
               ((st.messages ++ [⟨.user, jsTrim st.input⟩]) ++ [⟨.assistant, []⟩])
               (some (((st.messages ++ [⟨.user, jsTrim st.input⟩] : List Msg)).length : Int))
               (failNotice e) }, .failed) := by
        simp [onSend, hq, hl]
      rw [hred]
      refine ⟨rfl, rfl, ⟨e, ?_⟩⟩
      refine (hfix [] e).trans ?_
      simp [appliedDeltas]
  | resp status body =>
      by_cases hok : respOk status = true
      · cases body with
        | none =>
            have hred : onSend st (.resp status none) =
                ({ input := [], loading := false,
                   assistantIndexRef :=
                     some (((st.messages ++ [⟨.user, jsTrim st.input⟩] : List Msg)).length : Int),
                   messages := appendToAssistant
                     ((st.messages ++ [⟨.user, jsTrim st.input⟩]) ++ [⟨.assistant, []⟩])
                     (some (((st.messages ++ [⟨.user, jsTrim st.input⟩] : List Msg)).length : Int))
                     (failNotice noBodyMsg) }, .failed) := by
              simp [onSend, hq, hl, hok]
            rw [hred]
            refine ⟨rfl, rfl, ⟨noBodyMsg, ?_⟩⟩
            refine (hfix [] noBodyMsg).trans ?_
            simp [appliedDeltas, hok]
        | some sb =>
            simp only [transportFailure, hok, Bool.not_true, Bool.false_eq_true,
              ite_false, if_neg, Bool.and_eq_true, Bool.not_eq_true'] at hf
            obtain ⟨htail, hnc⟩ := hf
            obtain ⟨e, he⟩ := Option.isSome_iff_exists.mp htail
            have hnc' : (runStream (initParser
                (st.messages ++ [⟨.user, jsTrim st.input⟩, ⟨.assistant, []⟩])
                (some ((st.messages.length : Int) + 1))) sb.chunks).2.cancelled
                = false := by simpa using hnc
            have hred : onSend st (.resp status (some sb)) =
                ({ input := [], loading := false,
                   assistantIndexRef :=
                     some (((st.messages ++ [⟨.user, jsTrim st.input⟩] : List Msg)).length : Int),
                   messages := appendToAssistant
                     (runStream (initParser
                         ((st.messages ++ [⟨.user, jsTrim st.input⟩]) ++ [⟨.assistant, []⟩])
                         (some (((st.messages ++ [⟨.user, jsTrim st.input⟩] : List Msg)).length : Int)))
                       sb.chunks).2.msgs
                     (some (((st.messages ++ [⟨.user, jsTrim st.input⟩] : List Msg)).length : Int))
                     (failNotice e) }, .failed) := by
              simp [onSend, hq, hl, hok, hnc', he]
            have hmsgs : (runStream (initParser
                  ((st.messages ++ [⟨.user, jsTrim st.input⟩]) ++ [⟨.assistant, []⟩])
                  (some (((st.messages ++ [⟨.user, jsTrim st.input⟩] : List Msg)).length : Int)))
                sb.chunks).2.msgs =
                (st.messages ++ [⟨.user, jsTrim st.input⟩]) ++
                  [⟨.assistant, (specDeltas (completeLines
                    (decodeChunk initDec sb.chunks.flatten).2)).flatten⟩] := by
              rw [runStream_msgs]
              refine (foldl_appendToAssistant_last
                (st.messages ++ [⟨.user, jsTrim st.input⟩]) .assistant [] _).trans ?_
              simp
            have hdel : (appliedDeltas st (.resp status (some sb))).flatten =
                (specDeltas (completeLines
                  (decodeChunk initDec sb.chunks.flatten).2)).flatten := by
              simp only [appliedDeltas, hok, Bool.not_true, Bool.false_eq_true,
                ite_false, if_neg]
              rw [runStream_deltas]
            rw [hred]
            refine ⟨rfl, rfl, ⟨e, ?_⟩⟩
            rw [hmsgs, hdel]
            refine (appendToAssistant_last (st.messages ++ [⟨.user, jsTrim st.input⟩])
              .assistant _ (failNotice e)).trans ?_
            simp
      · have hred : onSend st (.resp status body) =
            ({ input := [], loading := false,
               assistantIndexRef :=
                 some (((st.messages ++ [⟨.user, jsTrim st.input⟩] : List Msg)).length : Int),
               messages := appendToAssistant
                 ((st.messages ++ [⟨.user, jsTrim st.input⟩]) ++ [⟨.assistant, []⟩])
                 (some (((st.messages ++ [⟨.user, jsTrim st.input⟩] : List Msg)).length : Int))
                 (failNotice (httpErrMsg status body)) }, .failed) := by
          simp [onSend, hq, hl, hok]
        rw [hred]
        refine ⟨rfl, rfl, ⟨httpErrMsg status body, ?_⟩⟩
        refine (hfix [] (httpErrMsg status body)).trans ?_
        have hokf : respOk status = false := by simpa using hok
        simp [appliedDeltas, hokf]

/-- Witness for C5: the backend streams one `data:` line and then the
read rejects mid-stream; the applied delta is retained and the notice
appended after it. -/
theorem claim5_failure_semantics_witness :
    ((jsTrim ("hi".toList)).isEmpty = false ∧
      (false : Bool) = false ∧
      transportFailure ⟨"hi".toList, false, [], none⟩
        (.resp 200 (some ⟨[asciiBytes "data: part\n"], some "reset".toList⟩)) = true) ∧
    ((onSend ⟨"hi".toList, false, [], none⟩
        (.resp 200 (some ⟨[asciiBytes "data: part\n"], some "reset".toList⟩))).2 = .failed ∧
      (onSend ⟨"hi".toList, false, [], none⟩
        (.resp 200 (some ⟨[asciiBytes "data: part\n"], some "reset".toList⟩))).1.loading
        = false ∧
      ∃ e, (onSend ⟨"hi".toList, false, [], none⟩
          (.resp 200 (some ⟨[asciiBytes "data: part\n"], some "reset".toList⟩))).1.messages =
        ([] : List Msg) ++ [⟨.user, jsTrim "hi".toList⟩,
          ⟨.assistant, (appliedDeltas ⟨"hi".toList, false, [], none⟩
            (.resp 200 (some ⟨[asciiBytes "data: part\n"],
              some "reset".toList⟩))).flatten ++ failNotice e⟩]) :=
  ⟨⟨by decide, rfl, by decide⟩,
    claim5_failure_semantics ⟨"hi".toList, false, [], none⟩
      (.resp 200 (some ⟨[asciiBytes "data: part\n"], some "reset".toList⟩))
      (by decide) rfl (by decide)⟩

end SentinelRag
